import Mathlib

/-!
Verification of the simulation core of `src/labs/lab1.py` (flow-matching lab one:
simulating ODEs and SDEs).  Torch tensors of shape `(batch_size, dim)` are embedded
as `List (List ℝ)`; the elementwise torch operations used by the code (`+`, `*`,
scalar broadcast, `zeros_like`, `ones_like`) are embedded shape-faithfully via
`List.zipWith`/`List.map`.  Python exceptions are embedded with `Except String`.
-/

namespace Lab1

/-- A torch tensor of shape `(batch_size, dim)` over the reals, the shape used by
every state, drift and diffusion value in `lab1.py`. -/
abbrev Tensor := List (List ℝ)

/-- Elementwise unary operation on a `(batch_size, dim)` tensor. -/
def map2 (f : ℝ → ℝ) (a : Tensor) : Tensor := a.map (fun r => r.map f)

/-- Elementwise binary operation on `(batch_size, dim)` tensors (as `List.zipWith`,
truncating to the common shape; equal-shape operands are never truncated). -/
def zipWith2 (f : ℝ → ℝ → ℝ) (a b : Tensor) : Tensor := List.zipWith (List.zipWith f) a b

/-- Tensor addition `a + b`. -/
def tadd (a b : Tensor) : Tensor := zipWith2 (· + ·) a b

/-- Elementwise tensor product `a * b`. -/
def tmul (a b : Tensor) : Tensor := zipWith2 (· * ·) a b

/-- Scalar times tensor, `c * a` (scalar broadcast). -/
def tsmul (c : ℝ) (a : Tensor) : Tensor := map2 (fun x => c * x) a

/-- Tensor times scalar, `a * c` (scalar broadcast on the right). -/
def tscale (a : Tensor) (c : ℝ) : Tensor := map2 (fun x => x * c) a

/-- Model of `torch.zeros_like(a)`. -/
def zerosLike (a : Tensor) : Tensor := map2 (fun _ => 0) a

/-- Model of `torch.ones_like(a)`. -/
def onesLike (a : Tensor) : Tensor := map2 (fun _ => 1) a

/-- Entry `a[i][j]` of a tensor (defaulting to `0` outside the shape). -/
def ent (a : Tensor) (i j : ℕ) : ℝ := (a.getD i []).getD j 0

/-- Two tensors have the same `(batch_size, dim)` shape. -/
def sameShape (a b : Tensor) : Prop := a.map List.length = b.map List.length

/-! ## The generic `Simulator` (`Simulator.simulate`, `Simulator.simulate_with_trajectory`)

Both loops iterate `for t_idx in range(len(ts) - 1)` with `t = ts[t_idx]` and
`h = ts[t_idx + 1] - ts[t_idx]`, i.e. over the list of consecutive timestep pairs.
The abstract `step` may raise a Python exception (`EulerMaruyamaSimulator.step`
does, through `math.sqrt`), so it is `Except`-valued. -/

/-- The consecutive pairs `(ts[i], ts[i+1])` that the simulation loops iterate over. -/
def pairs (ts : List ℝ) : List (ℝ × ℝ) := ts.zip ts.tail

/-- Embeds `Simulator.simulate`: repeatedly `x = self.step(x, t, h)` over the consecutive
timestep pairs, returning only the final state. -/
def simulate {S : Type} (step : S → ℝ → ℝ → Except String S) (x : S) (ts : List ℝ) :
    Except String S :=
  (pairs ts).foldlM (fun y p => step y p.1 (p.2 - p.1)) x

/-- Loop of `Simulator.simulate_with_trajectory`: starting from `xs = [x.clone()]`,
repeatedly `x = self.step(x, t, h); xs.append(x.clone())`. -/
def simTraj {S : Type} (step : S → ℝ → ℝ → Except String S) (x : S) :
    List (ℝ × ℝ) → Except String (List S)
  | [] => Except.ok [x]
  | p :: ps =>
    match step x p.1 (p.2 - p.1) with
    | Except.error e => Except.error e
    | Except.ok y =>
      match simTraj step y ps with
      | Except.error e => Except.error e
      | Except.ok l => Except.ok (x :: l)

/-- Embeds `Simulator.simulate_with_trajectory`: the recorded states, one per timestep
(the stacking `torch.stack(xs, dim=1)` only reshapes and is not modelled). -/
def simulate_with_trajectory {S : Type} (step : S → ℝ → ℝ → Except String S) (x : S)
    (ts : List ℝ) : Except String (List S) :=
  simTraj step x (pairs ts)

/-- Lift a non-raising step rule (such as `EulerSimulator.step`) to the
`Except`-valued interface of the simulation loops. -/
def pureStep {S : Type} (f : S → ℝ → ℝ → S) : S → ℝ → ℝ → Except String S :=
  fun x t h => Except.ok (f x t h)

/-- Value-level trajectory of a non-raising step rule (the mathematical content of
`simulate_with_trajectory`, used to state the heap-model refinement below). -/
def trajPure {S : Type} (f : S → ℝ → ℝ → S) : S → List (ℝ × ℝ) → List S
  | x, [] => [x]
  | x, p :: ps => x :: trajPure f (f x p.1 (p.2 - p.1)) ps

/-- Model of Python `math.sqrt` on a scalar: raises `ValueError: math domain error`
on negative input, otherwise returns the square root. -/
noncomputable def mathSqrt (h : ℝ) : Except String ℝ :=
  if h < 0 then Except.error "math domain error" else Except.ok (Real.sqrt h)

/-! ## The `ODE`/`SDE` vector-field contracts and the two concrete integrators -/

/-- Embeds the abstract class `ODE`: a drift coefficient over batched states. -/
structure ODE where
  drift_coefficient : Tensor → ℝ → Tensor

/-- Embeds the abstract class `SDE`: drift and diffusion coefficients. -/
structure SDE where
  drift_coefficient : Tensor → ℝ → Tensor
  diffusion_coefficient : Tensor → ℝ → Tensor

/-- Embeds `EulerSimulator.step`:
`return xt + h * self.ode.drift_coefficient(xt, t)`. -/
def EulerSimulator.step (ode : ODE) (xt : Tensor) (t h : ℝ) : Tensor :=
  tadd xt (tsmul h (ode.drift_coefficient xt t))

/-- Embeds `EulerMaruyamaSimulator.step`:
`return xt + h * drift(xt, t) + diffusion(xt, t) * torch.randn_like(xt) * math.sqrt(h)`,
with the fresh standard-normal draw `torch.randn_like(xt)` passed in explicitly as `z`
(it has the shape of `xt` by construction).  `math.sqrt` raises on negative `h`. -/
noncomputable def EulerMaruyamaSimulator.step (sde : SDE) (z : Tensor) (xt : Tensor)
    (t h : ℝ) : Except String Tensor :=
  (mathSqrt h).map fun s =>
    tadd (tadd xt (tsmul h (sde.drift_coefficient xt t)))
      (tscale (tmul (sde.diffusion_coefficient xt t) z) s)

/-! ## Concrete dynamics models -/

/-- Embeds the class `BrownianMotion`. -/
structure BrownianMotion where
  sigma : ℝ

/-- Embeds `BrownianMotion.drift_coefficient`: `return torch.zeros_like(xt)`. -/
def BrownianMotion.drift_coefficient (bm : BrownianMotion) (xt : Tensor) (t : ℝ) : Tensor :=
  zerosLike xt

/-- Embeds `BrownianMotion.diffusion_coefficient`: `return self.sigma * torch.ones_like(xt)`. -/
def BrownianMotion.diffusion_coefficient (bm : BrownianMotion) (xt : Tensor) (t : ℝ) : Tensor :=
  tsmul bm.sigma (onesLike xt)

/-- The `SDE` interface of a `BrownianMotion`. -/
def BrownianMotion.toSDE (bm : BrownianMotion) : SDE :=
  ⟨bm.drift_coefficient, bm.diffusion_coefficient⟩

/-- Embeds the class `OUProcess`. -/
structure OUProcess where
  theta : ℝ
  sigma : ℝ

/-- Embeds `OUProcess.drift_coefficient`: `return -self.theta * xt`. -/
def OUProcess.drift_coefficient (ou : OUProcess) (xt : Tensor) (t : ℝ) : Tensor :=
  tsmul (-ou.theta) xt

/-- Embeds `OUProcess.diffusion_coefficient`: `return self.sigma * torch.ones_like(xt)`. -/
def OUProcess.diffusion_coefficient (ou : OUProcess) (xt : Tensor) (t : ℝ) : Tensor :=
  tsmul ou.sigma (onesLike xt)

/-- The `SDE` interface of an `OUProcess`. -/
def OUProcess.toSDE (ou : OUProcess) : SDE :=
  ⟨ou.drift_coefficient, ou.diffusion_coefficient⟩

/-- Embeds the abstract class `Density`: a per-point log-density together with its
score.  In the source the score is derived from `log_density` by batched automatic
differentiation (`vmap(jacrev(self.log_density))`), i.e. it is exactly the gradient
of the log-density at each point; for the concrete `Gaussian` below this gradient
is embedded in closed form and certified by `Gaussian.hasDerivAt_log_density_fst` /
`Gaussian.hasDerivAt_log_density_snd`. -/
structure Density where
  log_density : List ℝ → ℝ
  score : List ℝ → List ℝ

/-- Embeds the class `LangevinSDE`. -/
structure LangevinSDE where
  sigma : ℝ
  density : Density

/-- Embeds `LangevinSDE.drift_coefficient`:
`return self.sigma**2 * self.density.score(xt) / 2`, the score being applied to each
row of the batch. -/
noncomputable def LangevinSDE.drift_coefficient (lv : LangevinSDE) (xt : Tensor) (t : ℝ) : Tensor :=
  map2 (fun s => lv.sigma ^ 2 * s / 2) (xt.map lv.density.score)

/-- Embeds `LangevinSDE.diffusion_coefficient`: `return self.sigma * torch.ones_like(xt)`. -/
def LangevinSDE.diffusion_coefficient (lv : LangevinSDE) (xt : Tensor) (t : ℝ) : Tensor :=
  tsmul lv.sigma (onesLike xt)

/-- The `SDE` interface of a `LangevinSDE`. -/
noncomputable def LangevinSDE.toSDE (lv : LangevinSDE) : SDE :=
  ⟨lv.drift_coefficient, lv.diffusion_coefficient⟩

/-! ## Concrete distributions

The class `Gaussian` wraps `torch.distributions.MultivariateNormal(mean, cov)` for
the two-dimensional case (`mean: (2,)`, `cov: (2,2)`).  Its `__init__` only
registers the buffers; the wrapped torch distribution is rebuilt at each access of
the `distribution` property, i.e. inside `sample`/`log_density`, and it is there
(in torch's Cholesky factorization) that an invalid covariance fails. -/

/-- Embeds the class `Gaussian`: the registered buffers `mean` (shape `(2,)`) and
`cov` (shape `(2,2)`). -/
structure Gaussian where
  mean : List ℝ
  cov : Tensor

/-- Embeds `Gaussian.__init__`: it only stores the buffers and can never raise. -/
def Gaussian.init (mean : List ℝ) (cov : Tensor) : Except String Gaussian :=
  Except.ok ⟨mean, cov⟩

/-- Embeds `Gaussian.log_density`, i.e. the 2-dimensional
`MultivariateNormal(mean, cov).log_prob(x)`:
`-(1/2)*(x-mean)^T cov^{-1} (x-mean) - (2/2)*log(2*pi) - (1/2)*log det cov`,
with the inverse written through the adjugate of the 2-by-2 covariance. -/
noncomputable def Gaussian.log_density (g : Gaussian) (x : List ℝ) : ℝ :=
  -(ent g.cov 1 1 * (x.getD 0 0 - g.mean.getD 0 0) ^ 2
      - (ent g.cov 0 1 + ent g.cov 1 0) * (x.getD 0 0 - g.mean.getD 0 0)
          * (x.getD 1 0 - g.mean.getD 1 0)
      + ent g.cov 0 0 * (x.getD 1 0 - g.mean.getD 1 0) ^ 2)
    / (2 * (ent g.cov 0 0 * ent g.cov 1 1 - ent g.cov 0 1 * ent g.cov 1 0))
  - Real.log (2 * Real.pi)
  - Real.log (ent g.cov 0 0 * ent g.cov 1 1 - ent g.cov 0 1 * ent g.cov 1 0) / 2

/-- Embeds `Density.score` for a `Gaussian`: the gradient of `Gaussian.log_density`
at the point, which is what `vmap(jacrev(self.log_density))` computes in the source.
Certified against `Gaussian.log_density` by `Gaussian.hasDerivAt_log_density_fst`
and `Gaussian.hasDerivAt_log_density_snd` below. -/
noncomputable def Gaussian.score (g : Gaussian) (x : List ℝ) : List ℝ :=
  [-(2 * ent g.cov 1 1 * (x.getD 0 0 - g.mean.getD 0 0)
        - (ent g.cov 0 1 + ent g.cov 1 0) * (x.getD 1 0 - g.mean.getD 1 0))
      / (2 * (ent g.cov 0 0 * ent g.cov 1 1 - ent g.cov 0 1 * ent g.cov 1 0)),
    -(2 * ent g.cov 0 0 * (x.getD 1 0 - g.mean.getD 1 0)
        - (ent g.cov 0 1 + ent g.cov 1 0) * (x.getD 0 0 - g.mean.getD 0 0))
      / (2 * (ent g.cov 0 0 * ent g.cov 1 1 - ent g.cov 0 1 * ent g.cov 1 0))]

/-- The `Density` interface of a `Gaussian` (log-density plus autodiff score). -/
noncomputable def Gaussian.toDensity (g : Gaussian) : Density :=
  ⟨g.log_density, g.score⟩

/-- Success condition of torch's Cholesky factorization of the 2-by-2 covariance
(used by `MultivariateNormal.__init__` when the `distribution` property is built):
the leading principal minors of the lower-triangular data are positive. -/
def PD2 (c : Tensor) : Prop :=
  0 < ent c 0 0 ∧ 0 < ent c 0 0 * ent c 1 1 - ent c 1 0 ^ 2

noncomputable instance (c : Tensor) : Decidable (PD2 c) := by
  unfold PD2
  infer_instance

/-- The lower-triangular Cholesky factor `(L00, L10, L11)` of a 2-by-2 covariance. -/
noncomputable def cholVal (c : Tensor) : ℝ × ℝ × ℝ :=
  (Real.sqrt (ent c 0 0), ent c 1 0 / Real.sqrt (ent c 0 0),
    Real.sqrt (ent c 1 1 - ent c 1 0 ^ 2 / ent c 0 0))

/-- Model of `torch.linalg.cholesky` on a 2-by-2 matrix, as invoked by
`MultivariateNormal.__init__`: raises on a non-positive-definite input. -/
noncomputable def cholesky2 (c : Tensor) : Except String (ℝ × ℝ × ℝ) :=
  if PD2 c then
    Except.ok (cholVal c)
  else Except.error "linalg.cholesky: The factorization could not be completed"

/-- Batched Cholesky of a list of component covariances (what building the batched
component `MultivariateNormal` of a mixture does): the first failure propagates. -/
noncomputable def choleskyAll : List Tensor → Except String (List (ℝ × ℝ × ℝ))
  | [] => Except.ok []
  | c :: cs =>
    match cholesky2 c with
    | Except.error e => Except.error e
    | Except.ok L =>
      match choleskyAll cs with
      | Except.error e => Except.error e
      | Except.ok Ls => Except.ok (L :: Ls)

/-- Affine sampling map of a 2-dimensional `MultivariateNormal`: `mean + L @ z` for
the lower-triangular factor `L` and a standard-normal draw `z`. -/
def mvnAffine (μ : List ℝ) (L : ℝ × ℝ × ℝ) (z : List ℝ) : List ℝ :=
  [μ.getD 0 0 + L.1 * z.getD 0 0,
    μ.getD 1 0 + L.2.1 * z.getD 0 0 + L.2.2 * z.getD 1 0]

/-- Embeds `Gaussian.sample` (one draw): the `distribution` property builds
`MultivariateNormal(self.mean, self.cov)` — whose `__init__` factorizes the
covariance and raises on a non-positive-definite one — and `.sample()` returns
`mean + L @ z` for a fresh standard-normal draw `z` (passed explicitly). -/
noncomputable def Gaussian.sampleE (g : Gaussian) (z : List ℝ) : Except String (List ℝ) :=
  (cholesky2 g.cov).map fun L => mvnAffine g.mean L z

/-- Embeds the class `GaussianMixture`: the registered buffers `means`
(shape `(nmodes, 2)`), `covs` (shape `(nmodes, 2, 2)`, one 2-by-2 covariance per
component) and `weights` (shape `(nmodes,)`). -/
structure GaussianMixture where
  means : Tensor
  covs : List Tensor
  weights : List ℝ

/-- Embeds `GaussianMixture.__init__`: it sets `nmodes = means.shape[0]` and
registers the buffers, and can never raise. -/
def GaussianMixture.init (means : Tensor) (covs : List Tensor) (weights : List ℝ) :
    Except String GaussianMixture :=
  Except.ok ⟨means, covs, weights⟩

/-- Normalization that `torch.distributions.Categorical(probs=w)` applies to its
probability vector: `probs / probs.sum()`. -/
noncomputable def normalizeWeights (w : List ℝ) : List ℝ :=
  w.map (fun x => x / w.sum)

/-- Inverse-CDF selection of a category: the index drawn from a categorical
distribution with probability vector `p`, represented on a uniform draw
`u ∈ [0, 1)`; the draw lands on index `j` with probability `p[j]`.  This represents
the sampling semantics of `torch.distributions.Categorical` (via
`torch.multinomial`), which lives outside this repository. -/
noncomputable def catIndex : List ℝ → ℝ → ℕ
  | [], _ => 0
  | q :: qs, u => if u < q then 0 else catIndex qs (u - q) + 1

/-- Embeds `GaussianMixture.sample` (one draw), i.e.
`torch.distributions.MixtureSameFamily(Categorical(probs=weights), MultivariateNormal(means, covs)).sample()`:
accessing the `distribution` property first builds the batched component
`MultivariateNormal` (Cholesky of every component covariance — raising there on a
non-positive-definite component) and the `Categorical` (which normalizes the
weights and never raises at construction); sampling then draws a component index
according to the normalized weights (`torch.multinomial` raises on a negative
probability entry or a nonpositive sum) and returns that component's Gaussian
sample.  The categorical draw is represented by `catIndex` on the uniform draw `u`
and the component's Gaussian draw by the affine image of the standard-normal draw
`z`. -/
noncomputable def GaussianMixture.sampleE (gm : GaussianMixture) (u : ℝ) (z : List ℝ) :
    Except String (List ℝ) :=
  match choleskyAll gm.covs with
  | Except.error e => Except.error e
  | Except.ok Ls =>
    if ∃ x ∈ gm.weights, x < 0 then
      Except.error "invalid multinomial distribution (encountering probability entry < 0)"
    else if gm.weights.sum ≤ 0 then
      Except.error "invalid multinomial distribution (sum of probabilities <= 0)"
    else
      Except.ok (mvnAffine (gm.means.getD (catIndex (normalizeWeights gm.weights) u) [])
        (Ls.getD (catIndex (normalizeWeights gm.weights) u) (0, 0, 0)) z)

/-! ## Heap model of the simulation loops (frame property)

Torch tensors live on a heap; `Store` models the allocated tensors, and a tensor
object is a reference (an index) into it.  Every torch operation the simulation
loops perform — the arithmetic of the step rules (`+`, `*`, scalar broadcast,
`zeros_like`/`ones_like`/`randn_like`) and `.clone()` — is out-of-place: it
allocates a fresh result tensor and never writes through an existing reference.
The heap model therefore only ever appends, which is exactly the faithful
embedding of the code (no in-place torch operation, no indexed assignment appears
in the loops or steps). -/

/-- The heap of allocated tensors; a tensor object is an index into it. -/
abbrev Store := List Tensor

/-- Allocate a fresh tensor on the heap, returning the new heap and the reference. -/
def alloc (s : Store) (v : Tensor) : Store × ℕ := (s ++ [v], s.length)

/-- One `x = self.step(x, t, h)` in the heap model: read the working state through
its reference, compute the out-of-place step value, allocate it fresh. -/
def stepStore (f : Tensor → ℝ → ℝ → Tensor) (s : Store) (r : ℕ) (t h : ℝ) : Store × ℕ :=
  alloc s (f (s.getD r []) t h)

/-- Model of `x.clone()`: allocate a copy of the referenced tensor. -/
def cloneStore (s : Store) (r : ℕ) : Store × ℕ :=
  alloc s (s.getD r [])

/-- Heap model of `Simulator.simulate`: fold the stepping over the timestep pairs,
returning the final heap and the reference of the final state. -/
def simulateStore (f : Tensor → ℝ → ℝ → Tensor) : Store → ℕ → List (ℝ × ℝ) → Store × ℕ
  | s, r, [] => (s, r)
  | s, r, p :: ps =>
    let sr := stepStore f s r p.1 (p.2 - p.1)
    simulateStore f sr.1 sr.2 ps

/-- Loop of the heap model of `Simulator.simulate_with_trajectory`:
`x = self.step(x, t, h); xs.append(x.clone())`, returning the final heap and the
references recorded by the appends. -/
def trajLoopStore (f : Tensor → ℝ → ℝ → Tensor) : Store → ℕ → List (ℝ × ℝ) → Store × List ℕ
  | s, _, [] => (s, [])
  | s, r, p :: ps =>
    let s1 := stepStore f s r p.1 (p.2 - p.1)
    let s2 := cloneStore s1.1 s1.2
    let s3 := trajLoopStore f s2.1 s1.2 ps
    (s3.1, s2.2 :: s3.2)

/-- Heap model of `Simulator.simulate_with_trajectory`: `xs = [x.clone()]`, then
the loop; returns the final heap and the references of all recorded states. -/
def simulateTrajStore (f : Tensor → ℝ → ℝ → Tensor) (s : Store) (r : ℕ)
    (ps : List (ℝ × ℝ)) : Store × List ℕ :=
  let s0 := cloneStore s r
  let s1 := trajLoopStore f s0.1 r ps
  (s1.1, s0.2 :: s1.2)

/-! ### Helper lemmas about the simulation loops -/

lemma pairs_length (ts : List ℝ) : (pairs ts).length = ts.length - 1 := by
  simp [pairs]

lemma simTraj_ok_shape {S : Type} (step : S → ℝ → ℝ → Except String S) :
    ∀ (ps : List (ℝ × ℝ)) (x : S) (l : List S),
      simTraj step x ps = Except.ok l → l.length = ps.length + 1 ∧ l.head? = some x := by
  intro ps
  induction ps with
  | nil =>
    intro x l h
    simp only [simTraj] at h
    cases h
    simp
  | cons p ps ih =>
    intro x l h
    simp only [simTraj] at h
    split at h
    · simp at h
    · split at h
      · simp at h
      · rename_i d1 y hstep d2 l' htr
        injection h with h
        subst h
        have := ih y l' htr
        simp [this.1]

lemma simTraj_ok_getLast {S : Type} (step : S → ℝ → ℝ → Except String S) :
    ∀ (ps : List (ℝ × ℝ)) (x : S) (l : List S),
      simTraj step x ps = Except.ok l →
      ∃ y, ps.foldlM (fun z p => step z p.1 (p.2 - p.1)) x = Except.ok y ∧
        l.getLast? = some y := by
  intro ps
  induction ps with
  | nil =>
    intro x l h
    simp only [simTraj] at h
    cases h
    exact ⟨x, rfl, rfl⟩
  | cons p ps ih =>
    intro x l h
    simp only [simTraj] at h
    split at h
    · simp at h
    · split at h
      · simp at h
      · rename_i d1 y hstep d2 l' htr
        injection h with h
        subst h
        obtain ⟨z, hfold, hlast⟩ := ih y l' htr
        refine ⟨z, ?_, ?_⟩
        · rw [List.foldlM_cons, hstep]
          simpa using hfold
        · cases l' with
          | nil => simp at hlast
          | cons a l'' => rw [List.getLast?_cons_cons]; exact hlast

/-! ### Claims C3 and C4 -/

/-- C3: for every initial state and every timestep schedule of length `n ≥ 1`,
`simulate_with_trajectory` returns a trajectory with exactly `n` recorded states
whose first recorded state is the initial state; with a schedule of exactly one
entry, no steps are taken and the trajectory is `[x]`. -/
theorem trajectory_length_invariant {S : Type} (step : S → ℝ → ℝ → Except String S)
    (x : S) (ts : List ℝ) (l : List S) (hn : 1 ≤ ts.length)
    (hok : simulate_with_trajectory step x ts = Except.ok l) :
    l.length = ts.length ∧ l.head? = some x ∧ (ts.length = 1 → l = [x]) := by
  have hshape := simTraj_ok_shape step (pairs ts) x l hok
  have hlen : l.length = ts.length := by
    rw [hshape.1, pairs_length]; omega
  refine ⟨hlen, hshape.2, ?_⟩
  intro h1
  have hp : pairs ts = [] := by
    have : (pairs ts).length = 0 := by rw [pairs_length, h1]
    exact List.eq_nil_of_length_eq_zero this
  have : simTraj step x (pairs ts) = Except.ok l := hok
  rw [hp] at this
  simp only [simTraj, Except.ok.injEq] at this
  exact this.symm

theorem trajectory_length_invariant_witness :
    (1 ≤ [(0 : ℝ)].length) ∧
      ([(7 : ℕ)].length = [(0 : ℝ)].length ∧ [(7 : ℕ)].head? = some 7 ∧
        ([(0 : ℝ)].length = 1 → [(7 : ℕ)] = [7])) :=
  ⟨by decide,
    trajectory_length_invariant (fun n _ _ => Except.ok n) 7 [0] [7] (by decide) rfl⟩

/-- C4: the last recorded state of `simulate_with_trajectory` equals the return
value of `simulate` on the same inputs and the same step rule (hence the same
sequence of random draws per step; for deterministic simulators the step rule is
a fixed pure function and the equality is exact). -/
theorem final_state_consistency {S : Type} (step : S → ℝ → ℝ → Except String S)
    (x : S) (ts : List ℝ) (l : List S)
    (hok : simulate_with_trajectory step x ts = Except.ok l) :
    ∃ y, simulate step x ts = Except.ok y ∧ l.getLast? = some y :=
  simTraj_ok_getLast step (pairs ts) x l hok

/-! ### Shape and elementwise lemmas for the tensor model -/

lemma map2_length (f : ℝ → ℝ) (a : Tensor) : (map2 f a).length = a.length := by
  simp [map2]

lemma sameShape_map2 (f : ℝ → ℝ) (a : Tensor) : sameShape (map2 f a) a := by
  simp [sameShape, map2, List.map_map, Function.comp]

lemma sameShape_length {a b : Tensor} (h : sameShape a b) : a.length = b.length := by
  have := congrArg List.length h
  simpa using this

lemma getD_map_lt {α β : Type} (f : α → β) (d : β) (d' : α) :
    ∀ (l : List α) (i : ℕ), i < l.length → (l.map f).getD i d = f (l.getD i d')
  | a :: l, 0, _ => rfl
  | a :: l, i + 1, h => by
    simp only [List.map_cons, List.getD_cons_succ]
    exact getD_map_lt f d d' l i (by simpa using h)

lemma sameShape_row {a b : Tensor} (h : sameShape a b) (i : ℕ) (hi : i < a.length) :
    (a.getD i []).length = (b.getD i []).length := by
  have hb : i < b.length := by rw [← sameShape_length h]; exact hi
  have ha' := getD_map_lt List.length 0 ([] : List ℝ) a i hi
  have hb' := getD_map_lt List.length 0 ([] : List ℝ) b i hb
  rw [← ha', ← hb', h]

lemma getD_zipWith_row (f : ℝ → ℝ → ℝ) :
    ∀ (ra rb : List ℝ) (j : ℕ), j < ra.length → j < rb.length →
      (List.zipWith f ra rb).getD j 0 = f (ra.getD j 0) (rb.getD j 0)
  | a :: ra, b :: rb, 0, _, _ => rfl
  | a :: ra, b :: rb, j + 1, ha, hb => by
    simp only [List.zipWith_cons_cons, List.getD_cons_succ]
    exact getD_zipWith_row f ra rb j (by simpa using ha) (by simpa using hb)

lemma getD_zipWith2 (f : ℝ → ℝ → ℝ) :
    ∀ (a b : Tensor) (i : ℕ), i < a.length → i < b.length →
      (zipWith2 f a b).getD i [] = List.zipWith f (a.getD i []) (b.getD i [])
  | ra :: a, rb :: b, 0, _, _ => rfl
  | ra :: a, rb :: b, i + 1, ha, hb => by
    simp only [zipWith2, List.zipWith_cons_cons, List.getD_cons_succ]
    exact getD_zipWith2 f a b i (by simpa using ha) (by simpa using hb)

lemma getD_map2 (f : ℝ → ℝ) :
    ∀ (a : Tensor) (i : ℕ), i < a.length → (map2 f a).getD i [] = (a.getD i []).map f
  | ra :: a, 0, _ => rfl
  | ra :: a, i + 1, h => by
    simp only [map2, List.map_cons, List.getD_cons_succ]
    exact getD_map2 f a i (by simpa using h)

lemma getD_map_row (f : ℝ → ℝ) :
    ∀ (r : List ℝ) (j : ℕ), j < r.length → (r.map f).getD j 0 = f (r.getD j 0)
  | a :: r, 0, _ => rfl
  | a :: r, j + 1, h => by
    simp only [List.map_cons, List.getD_cons_succ]
    exact getD_map_row f r j (by simpa using h)

lemma zipWith_mul_zero_row :
    ∀ (r w : List ℝ), w.length = r.length →
      List.zipWith (· * ·) (r.map fun _ => (0 : ℝ)) w = r.map fun _ => (0 : ℝ)
  | [], [], _ => rfl
  | [], w :: ws, h => by simp at h
  | r :: rs, [], h => by simp at h
  | r :: rs, w :: ws, h => by
    simp only [List.map_cons, List.zipWith_cons_cons, zero_mul, List.cons.injEq, true_and]
    exact zipWith_mul_zero_row rs ws (by simpa using h)

lemma zipWith_add_zero_row :
    ∀ (w r : List ℝ), w.length = r.length →
      List.zipWith (· + ·) w (r.map fun _ => (0 : ℝ)) = w
  | [], [], _ => rfl
  | [], r :: rs, h => by simp at h
  | w :: ws, [], h => by simp at h
  | w :: ws, r :: rs, h => by
    simp only [List.map_cons, List.zipWith_cons_cons, add_zero, List.cons.injEq, true_and]
    exact zipWith_add_zero_row ws rs (by simpa using h)

lemma tmul_zerosLike :
    ∀ (x z : Tensor), sameShape z x → tmul (zerosLike x) z = zerosLike x
  | [], z, _ => by simp [tmul, zerosLike, map2, zipWith2]
  | r :: x, [], h => by simp [sameShape] at h
  | r :: x, w :: z, h => by
    simp only [sameShape, List.map_cons, List.cons.injEq] at h
    simp only [tmul, zerosLike, map2, zipWith2, List.map_cons, List.zipWith_cons_cons,
      List.cons.injEq]
    exact ⟨zipWith_mul_zero_row r w h.1, tmul_zerosLike x z h.2⟩

lemma tadd_zerosLike :
    ∀ (w x : Tensor), sameShape w x → tadd w (zerosLike x) = w
  | [], x, _ => by simp [tadd, zerosLike, map2, zipWith2]
  | wr :: w, [], h => by simp [sameShape] at h
  | wr :: w, rx :: x, h => by
    simp only [sameShape, List.map_cons, List.cons.injEq] at h
    simp only [tadd, zerosLike, map2, zipWith2, List.map_cons, List.zipWith_cons_cons,
      List.cons.injEq]
    exact ⟨zipWith_add_zero_row wr rx h.1, tadd_zerosLike w x h.2⟩

lemma tscale_zerosLike (x : Tensor) (s : ℝ) : tscale (zerosLike x) s = zerosLike x := by
  simp [tscale, zerosLike, map2, List.map_map, Function.comp, zero_mul]

lemma sameShape_zipWith2_left (f : ℝ → ℝ → ℝ) :
    ∀ (a b : Tensor), sameShape b a → sameShape (zipWith2 f a b) a
  | [], b, _ => by simp [sameShape, zipWith2]
  | ra :: a, [], h => by simp [sameShape] at h
  | ra :: a, rb :: b, h => by
    simp only [sameShape, List.map_cons, List.cons.injEq] at h
    simp only [sameShape, zipWith2, List.zipWith_cons_cons, List.map_cons, List.cons.injEq]
    constructor
    · simp [h.1]
    · exact sameShape_zipWith2_left f a b h.2

lemma mem_tsmul_onesLike {σ c : ℝ} {xt : Tensor} {r : List ℝ}
    (hr : r ∈ tsmul σ (onesLike xt)) (hc : c ∈ r) : c = σ * 1 := by
  simp only [tsmul, onesLike, map2, List.mem_map] at hr
  obtain ⟨r₁, hr₁, rfl⟩ := hr
  obtain ⟨r₀, hr₀, rfl⟩ := hr₁
  rw [List.map_map] at hc
  obtain ⟨a, ha, hca⟩ := List.mem_map.mp hc
  exact hca.symm

lemma simulate_pureStep {S : Type} (f : S → ℝ → ℝ → S) :
    ∀ (ps : List (ℝ × ℝ)) (x : S),
      ps.foldlM (fun y p => pureStep f y p.1 (p.2 - p.1)) x
        = Except.ok (ps.foldl (fun y p => f y p.1 (p.2 - p.1)) x)
  | [], x => rfl
  | p :: ps, x => by
    simp only [List.foldlM_cons, List.foldl_cons, pureStep]
    simpa using simulate_pureStep f ps (f x p.1 (p.2 - p.1))

lemma simTraj_pureStep {S : Type} (f : S → ℝ → ℝ → S) :
    ∀ (ps : List (ℝ × ℝ)) (x : S),
      simTraj (pureStep f) x ps = Except.ok (trajPure f x ps)
  | [], x => rfl
  | p :: ps, x => by
    simp only [simTraj, pureStep, trajPure]
    rw [simTraj_pureStep f ps (f x p.1 (p.2 - p.1))]

lemma pairs_eq_nil {ts : List ℝ} (h : ts.length ≤ 1) : pairs ts = [] := by
  match ts with
  | [] => rfl
  | [t] => rfl
  | a :: b :: ts => simp at h

theorem final_state_consistency_witness :
    ∃ y, simulate (fun (n : ℕ) _ _ => Except.ok n) 3 [(0 : ℝ), 1] = Except.ok y ∧
      [(3 : ℕ), 3].getLast? = some y :=
  final_state_consistency (fun n _ _ => Except.ok n) 3 [0, 1] [3, 3] rfl

/-! ### Claim C7: the Euler step rule -/

/-- C7: for every ODE, state, time and step size, `EulerSimulator.step` returns
`state + dt * drift(state, t)` — elementwise, `out[i][j] = xt[i][j] + h * drift[i][j]`
with the output shaped like the state (given the documented contract that the drift
is shaped like the state) — and the step is deterministic: two calls with identical
inputs return identical outputs (the step is a pure function of its inputs). -/
theorem euler_step_formula (ode : ODE) (xt : Tensor) (t h : ℝ) (i j : ℕ)
    (hd : sameShape (ode.drift_coefficient xt t) xt)
    (hi : i < xt.length) (hj : j < (xt.getD i []).length) :
    ent (EulerSimulator.step ode xt t h) i j
      = ent xt i j + h * ent (ode.drift_coefficient xt t) i j
    ∧ sameShape (EulerSimulator.step ode xt t h) xt
    ∧ EulerSimulator.step ode xt t h = EulerSimulator.step ode xt t h := by
  have hdl : (ode.drift_coefficient xt t).length = xt.length := sameShape_length hd
  have hil : i < (tsmul h (ode.drift_coefficient xt t)).length := by
    rw [tsmul, map2_length, hdl]; exact hi
  have hrow : (xt.getD i []).length = ((ode.drift_coefficient xt t).getD i []).length :=
    (sameShape_row hd i (by rw [hdl]; exact hi)).symm
  have hid : i < (ode.drift_coefficient xt t).length := by
    rw [hdl]
    exact hi
  have hjd : j < ((ode.drift_coefficient xt t).getD i []).length := by
    rw [← hrow]
    exact hj
  have hjm : j < ((tsmul h (ode.drift_coefficient xt t)).getD i []).length := by
    rw [tsmul, getD_map2 _ _ i hid, List.length_map]
    exact hjd
  refine ⟨?_, ?_, rfl⟩
  · show (List.getD (EulerSimulator.step ode xt t h) i []).getD j 0
        = ent xt i j + h * ent (ode.drift_coefficient xt t) i j
    rw [EulerSimulator.step, tadd, getD_zipWith2 _ xt _ i hi hil]
    rw [getD_zipWith_row _ _ _ j hj hjm]
    rw [tsmul, getD_map2 _ _ i hid, getD_map_row _ _ j hjd]
    rfl
  · exact sameShape_zipWith2_left _ xt _ ((sameShape_map2 _ _).trans hd)

theorem euler_step_formula_witness :
    ent (EulerSimulator.step ⟨fun xt _ => tsmul 2 xt⟩ [[5]] 0 1) 0 0
      = ent [[5]] 0 0 + 1 * ent ((ODE.mk fun xt _ => tsmul 2 xt).drift_coefficient [[5]] 0) 0 0
    ∧ sameShape (EulerSimulator.step ⟨fun xt _ => tsmul 2 xt⟩ [[5]] 0 1) [[5]]
    ∧ EulerSimulator.step ⟨fun xt _ => tsmul 2 xt⟩ [[5]] 0 1
        = EulerSimulator.step ⟨fun xt _ => tsmul 2 xt⟩ [[5]] 0 1 :=
  euler_step_formula ⟨fun xt _ => tsmul 2 xt⟩ [[5]] 0 1 0 0 rfl (by decide) (by decide)

/-! ### Claim C5: no schedule validation is performed -/

/-- C5 amended: `simulate` and `simulate_with_trajectory` perform no validation of
the timestep schedule.  With the deterministic Euler step rule they never raise,
whatever the schedule (in particular for non-increasing timesteps, which are
consumed as given, without reordering or deduplication); with fewer than two
timesteps the loop body never runs and the initial state comes back unchanged
(trajectory of length 1).  The only failure an invalid schedule can trigger is
incidental: `EulerMaruyamaSimulator.step` raises `math domain error` from
`math.sqrt` when a step size `h = ts[i+1] - ts[i]` is negative. -/
theorem no_schedule_validation (ode : ODE) (x : Tensor) (ts : List ℝ) :
    (∃ y, simulate (pureStep (EulerSimulator.step ode)) x ts = Except.ok y)
    ∧ (∃ l, simulate_with_trajectory (pureStep (EulerSimulator.step ode)) x ts = Except.ok l)
    ∧ (ts.length ≤ 1 →
        simulate (pureStep (EulerSimulator.step ode)) x ts = Except.ok x
        ∧ simulate_with_trajectory (pureStep (EulerSimulator.step ode)) x ts = Except.ok [x])
    ∧ (∀ (sde : SDE) (z xt : Tensor) (t h : ℝ), h < 0 →
        EulerMaruyamaSimulator.step sde z xt t h = Except.error "math domain error") := by
  refine ⟨⟨_, simulate_pureStep _ (pairs ts) x⟩, ⟨_, simTraj_pureStep _ (pairs ts) x⟩, ?_, ?_⟩
  · intro hlen
    have hp := pairs_eq_nil hlen
    constructor
    · show (pairs ts).foldlM _ x = Except.ok x
      rw [hp]
      rfl
    · show simTraj _ x (pairs ts) = Except.ok [x]
      rw [hp]
      rfl
  · intro sde z xt t h hneg
    rw [EulerMaruyamaSimulator.step, mathSqrt, if_pos hneg]
    rfl

theorem no_schedule_validation_witness :
    ([(5 : ℝ), 3].length ≤ 1 →
        simulate (pureStep (EulerSimulator.step ⟨fun xt _ => zerosLike xt⟩)) [[1]] [(5 : ℝ), 3]
          = Except.ok [[1]]
        ∧ simulate_with_trajectory (pureStep (EulerSimulator.step ⟨fun xt _ => zerosLike xt⟩))
            [[1]] [(5 : ℝ), 3] = Except.ok [[[1]]])
    ∧ EulerMaruyamaSimulator.step (BrownianMotion.mk 1).toSDE [[1]] [[1]] 0 (-1)
        = Except.error "math domain error" :=
  ⟨(no_schedule_validation ⟨fun xt _ => zerosLike xt⟩ [[1]] [(5 : ℝ), 3]).2.2.1,
    (no_schedule_validation ⟨fun xt _ => zerosLike xt⟩ [[1]] []).2.2.2
      (BrownianMotion.mk 1).toSDE [[1]] [[1]] 0 (-1) (by norm_num)⟩

/-- C5 counterexample: a concrete invalid schedule on which neither `simulate` nor
`simulate_with_trajectory` fails.  The schedule `[1, 0]` is not strictly increasing
(and `[]` has fewer than 1 timestep), yet the Euler simulator returns normally. -/
theorem no_schedule_validation_cex :
    ¬ List.Chain' (· < ·) [(1 : ℝ), 0]
    ∧ simulate (pureStep (EulerSimulator.step ⟨fun xt _ => zerosLike xt⟩)) [[1]] [(1 : ℝ), 0]
        = Except.ok [[1]]
    ∧ simulate (pureStep (EulerSimulator.step ⟨fun xt _ => zerosLike xt⟩)) [[1]] ([] : List ℝ)
        = Except.ok [[1]]
    ∧ simulate_with_trajectory (pureStep (EulerSimulator.step ⟨fun xt _ => zerosLike xt⟩))
        [[1]] [(1 : ℝ), 0] = Except.ok [[[1]], [[1]]] := by
  refine ⟨?_, ?_, rfl, ?_⟩
  · simp only [List.chain'_cons, List.chain'_singleton, and_true]
    norm_num
  · show (pairs [(1 : ℝ), 0]).foldlM _ _ = _
    simp [pairs, pureStep, EulerSimulator.step, tadd, tsmul, zerosLike, map2, zipWith2]
  · show simTraj _ _ (pairs [(1 : ℝ), 0]) = _
    simp [pairs, simTraj, pureStep, EulerSimulator.step, tadd, tsmul, zerosLike, map2, zipWith2]

/-! ### Claim C1: Euler–Maruyama degeneracy at zero diffusion -/

/-- C1 amended: for every SDE whose diffusion coefficient is the zero tensor
everywhere, and every state, time, and nonnegative step size,
`EulerMaruyamaSimulator.step` returns exactly the `EulerSimulator.step` of the ODE
with the identical drift coefficient, whatever the noise draw (shape hypotheses are
the documented tensor contracts: the noise `torch.randn_like(xt)` and the drift are
shaped like the state).  For a negative step size the two differ:
`EulerMaruyamaSimulator.step` raises `math domain error` (see the counterexample),
which forces the restriction to nonnegative step sizes. -/
theorem em_euler_degeneracy (sde : SDE) (z xt : Tensor) (t h : ℝ)
    (hdiff : ∀ (x : Tensor) (s : ℝ), sde.diffusion_coefficient x s = zerosLike x)
    (hz : sameShape z xt)
    (hd : sameShape (sde.drift_coefficient xt t) xt)
    (hh : 0 ≤ h) :
    EulerMaruyamaSimulator.step sde z xt t h
      = Except.ok (EulerSimulator.step ⟨sde.drift_coefficient⟩ xt t h) := by
  have hs : mathSqrt h = Except.ok (Real.sqrt h) := by
    rw [mathSqrt, if_neg (not_lt.mpr hh)]
  rw [EulerMaruyamaSimulator.step, hs]
  simp only [Except.map]
  rw [hdiff, tmul_zerosLike xt z hz, tscale_zerosLike,
    tadd_zerosLike (tadd xt (tsmul h (sde.drift_coefficient xt t))) xt
      (sameShape_zipWith2_left _ xt _ ((sameShape_map2 _ _).trans hd))]
  rfl

theorem em_euler_degeneracy_witness :
    EulerMaruyamaSimulator.step (BrownianMotion.mk 0).toSDE [[1]] [[2]] 0 1
      = Except.ok (EulerSimulator.step ⟨(BrownianMotion.mk 0).toSDE.drift_coefficient⟩ [[2]] 0 1) :=
  em_euler_degeneracy (BrownianMotion.mk 0).toSDE [[1]] [[2]] 0 1
    (fun x s => by
      simp [BrownianMotion.toSDE, BrownianMotion.diffusion_coefficient, tsmul, onesLike,
        zerosLike, map2, List.map_map, Function.comp, zero_mul])
    rfl
    rfl
    (by norm_num)

/-- C1 counterexample: at the negative step size `h = -1` (the claim quantifies over
all step sizes) the Euler–Maruyama step of a zero-diffusion SDE raises
`math domain error` from `math.sqrt`, while the Euler step of the ODE with the
identical drift returns normally, so the two outputs are not equal. -/
theorem em_euler_degeneracy_cex :
    EulerMaruyamaSimulator.step (BrownianMotion.mk 0).toSDE [[1]] [[2]] 0 (-1)
        = Except.error "math domain error"
    ∧ EulerMaruyamaSimulator.step (BrownianMotion.mk 0).toSDE [[1]] [[2]] 0 (-1)
        ≠ Except.ok (EulerSimulator.step ⟨(BrownianMotion.mk 0).toSDE.drift_coefficient⟩
            [[2]] 0 (-1)) := by
  have he : EulerMaruyamaSimulator.step (BrownianMotion.mk 0).toSDE [[1]] [[2]] 0 (-1)
      = Except.error "math domain error" := by
    rw [EulerMaruyamaSimulator.step, mathSqrt, if_pos (by norm_num : (-1 : ℝ) < 0)]
    rfl
  exact ⟨he, by rw [he]; simp⟩

/-! ### Claim C8: diffusion coefficients of the implemented processes -/

/-- C8 amended: for every nonnegative `sigma`, the diffusion coefficients of
`BrownianMotion`, `OUProcess` and `LangevinSDE` are independent of the time argument
and nonnegative in every component at every state (the time-independence holds for
every `sigma`; nonnegativity fails for negative `sigma`, see the counterexample,
which forces the restriction to `0 ≤ sigma`). -/
theorem diffusion_nonneg_time_independent (σ θ : ℝ) (d : Density) (xt : Tensor) (t t' : ℝ)
    (hσ : 0 ≤ σ) :
    ((BrownianMotion.mk σ).diffusion_coefficient xt t
        = (BrownianMotion.mk σ).diffusion_coefficient xt t'
      ∧ ∀ r ∈ (BrownianMotion.mk σ).diffusion_coefficient xt t, ∀ c ∈ r, 0 ≤ c)
    ∧ ((OUProcess.mk θ σ).diffusion_coefficient xt t
        = (OUProcess.mk θ σ).diffusion_coefficient xt t'
      ∧ ∀ r ∈ (OUProcess.mk θ σ).diffusion_coefficient xt t, ∀ c ∈ r, 0 ≤ c)
    ∧ ((LangevinSDE.mk σ d).diffusion_coefficient xt t
        = (LangevinSDE.mk σ d).diffusion_coefficient xt t'
      ∧ ∀ r ∈ (LangevinSDE.mk σ d).diffusion_coefficient xt t, ∀ c ∈ r, 0 ≤ c) := by
  have hpos : (0 : ℝ) ≤ σ * 1 := by simpa using hσ
  refine ⟨⟨rfl, ?_⟩, ⟨rfl, ?_⟩, ⟨rfl, ?_⟩⟩
  · intro r hr c hc
    rw [mem_tsmul_onesLike hr hc]
    exact hpos
  · intro r hr c hc
    rw [mem_tsmul_onesLike hr hc]
    exact hpos
  · intro r hr c hc
    rw [mem_tsmul_onesLike hr hc]
    exact hpos

theorem diffusion_nonneg_time_independent_witness :
    ((BrownianMotion.mk 1).diffusion_coefficient [[3]] 0
        = (BrownianMotion.mk 1).diffusion_coefficient [[3]] 5
      ∧ ∀ r ∈ (BrownianMotion.mk 1).diffusion_coefficient [[3]] 0, ∀ c ∈ r, 0 ≤ c)
    ∧ ((OUProcess.mk 2 1).diffusion_coefficient [[3]] 0
        = (OUProcess.mk 2 1).diffusion_coefficient [[3]] 5
      ∧ ∀ r ∈ (OUProcess.mk 2 1).diffusion_coefficient [[3]] 0, ∀ c ∈ r, 0 ≤ c)
    ∧ ((LangevinSDE.mk 1 ⟨fun _ => 0, fun _ => []⟩).diffusion_coefficient [[3]] 0
        = (LangevinSDE.mk 1 ⟨fun _ => 0, fun _ => []⟩).diffusion_coefficient [[3]] 5
      ∧ ∀ r ∈ (LangevinSDE.mk 1 ⟨fun _ => 0, fun _ => []⟩).diffusion_coefficient [[3]] 0,
          ∀ c ∈ r, 0 ≤ c) :=
  diffusion_nonneg_time_independent 1 2 ⟨fun _ => 0, fun _ => []⟩ [[3]] 0 5 (by norm_num)

/-- C8 counterexample: the code places no constraint on `sigma`, so with
`BrownianMotion(sigma = -1)` the diffusion coefficient has the strictly negative
component `-1 * 1` at every state, refuting unconditional nonnegativity. -/
theorem diffusion_nonneg_cex :
    (BrownianMotion.mk (-1)).diffusion_coefficient [[0]] 0 = [[-1 * 1]]
    ∧ ¬ (0 : ℝ) ≤ -1 * 1 := by
  constructor
  · rfl
  · norm_num

/-! ### Certification of the closed-form score against the log-density

In the source the score is obtained from `log_density` by automatic differentiation,
which computes exactly the gradient.  The two lemmas below prove that the closed
form `Gaussian.score` is that gradient (the partial derivatives of
`Gaussian.log_density` in the two coordinates), so the embedding of the score is
faithful to `vmap(jacrev(log_density))`. -/

theorem Gaussian.hasDerivAt_log_density_fst (g : Gaussian) (x₁ x₂ : ℝ) :
    HasDerivAt (fun u => g.log_density [u, x₂]) ((g.score [x₁, x₂]).getD 0 0) x₁ := by
  have h0 : HasDerivAt (fun u : ℝ => u - g.mean.getD 0 0) 1 x₁ :=
    (hasDerivAt_id x₁).sub_const _
  have h1 : HasDerivAt (fun u : ℝ => (u - g.mean.getD 0 0) ^ 2)
      (2 * (x₁ - g.mean.getD 0 0)) x₁ := by
    simpa using h0.pow 2
  have hA := h1.const_mul (ent g.cov 1 1)
  have hB := (h0.const_mul (ent g.cov 0 1 + ent g.cov 1 0)).mul_const
    (x₂ - g.mean.getD 1 0)
  have h2 := ((hA.sub hB).add_const
    (ent g.cov 0 0 * (x₂ - g.mean.getD 1 0) ^ 2)).neg.div_const
    (2 * (ent g.cov 0 0 * ent g.cov 1 1 - ent g.cov 0 1 * ent g.cov 1 0))
  have h3 := (h2.sub_const (Real.log (2 * Real.pi))).sub_const
    (Real.log (ent g.cov 0 0 * ent g.cov 1 1 - ent g.cov 0 1 * ent g.cov 1 0) / 2)
  have hval : (g.score [x₁, x₂]).getD 0 0
      = -(ent g.cov 1 1 * (2 * (x₁ - g.mean.getD 0 0))
            - (ent g.cov 0 1 + ent g.cov 1 0) * 1 * (x₂ - g.mean.getD 1 0))
          / (2 * (ent g.cov 0 0 * ent g.cov 1 1 - ent g.cov 0 1 * ent g.cov 1 0)) := by
    show -(2 * ent g.cov 1 1 * (x₁ - g.mean.getD 0 0)
          - (ent g.cov 0 1 + ent g.cov 1 0) * (x₂ - g.mean.getD 1 0))
        / (2 * (ent g.cov 0 0 * ent g.cov 1 1 - ent g.cov 0 1 * ent g.cov 1 0)) = _
    ring
  rw [hval]
  exact h3

theorem Gaussian.hasDerivAt_log_density_snd (g : Gaussian) (x₁ x₂ : ℝ) :
    HasDerivAt (fun v => g.log_density [x₁, v]) ((g.score [x₁, x₂]).getD 1 0) x₂ := by
  have h0 : HasDerivAt (fun v : ℝ => v - g.mean.getD 1 0) 1 x₂ :=
    (hasDerivAt_id x₂).sub_const _
  have h1 : HasDerivAt (fun v : ℝ => (v - g.mean.getD 1 0) ^ 2)
      (2 * (x₂ - g.mean.getD 1 0)) x₂ := by
    simpa using h0.pow 2
  have hA : HasDerivAt (fun _ : ℝ => ent g.cov 1 1 * (x₁ - g.mean.getD 0 0) ^ 2)
      0 x₂ := hasDerivAt_const x₂ _
  have hB := h0.const_mul
    ((ent g.cov 0 1 + ent g.cov 1 0) * (x₁ - g.mean.getD 0 0))
  have hC := h1.const_mul (ent g.cov 0 0)
  have h2' := (((hA.sub hB).add hC).neg.div_const
    (2 * (ent g.cov 0 0 * ent g.cov 1 1 - ent g.cov 0 1 * ent g.cov 1 0))).sub_const
    (Real.log (2 * Real.pi))
  have h2 := h2'.sub_const
    (Real.log (ent g.cov 0 0 * ent g.cov 1 1 - ent g.cov 0 1 * ent g.cov 1 0) / 2)
  have hval : (g.score [x₁, x₂]).getD 1 0
      = -(0 - (ent g.cov 0 1 + ent g.cov 1 0) * (x₁ - g.mean.getD 0 0) * 1
            + ent g.cov 0 0 * (2 * (x₂ - g.mean.getD 1 0)))
          / (2 * (ent g.cov 0 0 * ent g.cov 1 1 - ent g.cov 0 1 * ent g.cov 1 0)) := by
    show -(2 * ent g.cov 0 0 * (x₂ - g.mean.getD 1 0)
          - (ent g.cov 0 1 + ent g.cov 1 0) * (x₁ - g.mean.getD 0 0))
        / (2 * (ent g.cov 0 0 * ent g.cov 1 1 - ent g.cov 0 1 * ent g.cov 1 0)) = _
    ring
  rw [hval]
  exact h2

/-! ### Claim C2: Langevin dynamics built from the matched Gaussian is the OU process -/

lemma gaussian_score_iso (s2 p q : ℝ) (hs : s2 ≠ 0) :
    (Gaussian.mk [0, 0] [[s2, 0], [0, s2]]).score [p, q] = [-p / s2, -q / s2] := by
  simp only [Gaussian.score, ent]
  norm_num
  constructor
  · rw [div_eq_div_iff (by positivity) hs]
    ring
  · rw [div_eq_div_iff (by positivity) hs]
    ring

/-- C2 amended: for every `theta > 0` and every NONZERO `sigma`, the `LangevinSDE`
built with parameter `sigma` from the zero-mean Gaussian density with variance
`sigma^2/(2*theta)` has, at every state (of row dimension 2, the dimension of the
Gaussian) and time, drift coefficient equal to `-theta * state`, i.e. equal to
`OUProcess(theta, sigma).drift_coefficient`, and diffusion coefficient equal to
`OUProcess(theta, sigma).diffusion_coefficient`.  At `sigma = 0` the Gaussian is
degenerate and the equality fails (see the counterexample), which forces the
restriction to nonzero `sigma`. -/
theorem langevin_ou_equivalence (θ σ : ℝ) (hθ : 0 < θ) (hσ : σ ≠ 0)
    (xt : Tensor) (t : ℝ) (hx : ∀ r ∈ xt, r.length = 2) :
    (LangevinSDE.mk σ
        (Gaussian.mk [0, 0] [[σ ^ 2 / (2 * θ), 0], [0, σ ^ 2 / (2 * θ)]]).toDensity
      ).drift_coefficient xt t
      = (OUProcess.mk θ σ).drift_coefficient xt t
    ∧ (LangevinSDE.mk σ
        (Gaussian.mk [0, 0] [[σ ^ 2 / (2 * θ), 0], [0, σ ^ 2 / (2 * θ)]]).toDensity
      ).diffusion_coefficient xt t
      = (OUProcess.mk θ σ).diffusion_coefficient xt t := by
  have hs2 : σ ^ 2 / (2 * θ) ≠ 0 := by positivity
  constructor
  · show map2 (fun s => σ ^ 2 * s / 2)
        (xt.map (Gaussian.mk [0, 0]
          [[σ ^ 2 / (2 * θ), 0], [0, σ ^ 2 / (2 * θ)]]).score)
      = tsmul (-θ) xt
    rw [map2, tsmul, map2, List.map_map]
    refine List.map_congr_left ?_
    intro r hr
    obtain ⟨p, q, rfl⟩ := List.length_eq_two.mp (hx r hr)
    show ((Gaussian.mk [0, 0]
        [[σ ^ 2 / (2 * θ), 0], [0, σ ^ 2 / (2 * θ)]]).score [p, q]).map
        (fun s => σ ^ 2 * s / 2) = [p, q].map (fun v => -θ * v)
    rw [gaussian_score_iso _ p q hs2]
    simp only [List.map_cons, List.map_nil, List.cons.injEq, and_true]
    constructor
    · field_simp
      ring
    · field_simp
      ring
  · rfl

theorem langevin_ou_equivalence_witness :
    (LangevinSDE.mk 2
        (Gaussian.mk [0, 0] [[2 ^ 2 / (2 * 1), 0], [0, 2 ^ 2 / (2 * 1)]]).toDensity
      ).drift_coefficient [[3, 5]] 0
      = (OUProcess.mk 1 2).drift_coefficient [[3, 5]] 0
    ∧ (LangevinSDE.mk 2
        (Gaussian.mk [0, 0] [[2 ^ 2 / (2 * 1), 0], [0, 2 ^ 2 / (2 * 1)]]).toDensity
      ).diffusion_coefficient [[3, 5]] 0
      = (OUProcess.mk 1 2).diffusion_coefficient [[3, 5]] 0 :=
  langevin_ou_equivalence 1 2 (by norm_num) (by norm_num) [[3, 5]] 0
    (by
      intro r hr
      rw [List.mem_singleton] at hr
      subst hr
      rfl)

/-- C2 counterexample: the claim quantifies over every `sigma`, but at `sigma = 0`
(and `theta = 1`) the matched Gaussian has the zero covariance matrix and the
Langevin drift is not `-theta * state`: in the source, evaluating the score raises
inside torch's Cholesky factorization of the zero covariance, and in the total
field-arithmetic model the degenerate inverse yields a zero drift, while the OU
drift at state `[[1, 0]]` is `[[-1, 0]]`. -/
theorem langevin_ou_equivalence_cex :
    (LangevinSDE.mk 0
        (Gaussian.mk [0, 0] [[0 ^ 2 / (2 * 1), 0], [0, 0 ^ 2 / (2 * 1)]]).toDensity
      ).drift_coefficient [[1, 0]] 0
      ≠ (OUProcess.mk 1 0).drift_coefficient [[1, 0]] 0 := by
  show map2 (fun s => (0 : ℝ) ^ 2 * s / 2) _ ≠ tsmul (-1) [[1, 0]]
  simp [map2, tsmul, Gaussian.toDensity, Gaussian.score, ent]

/-! ### Lemmas about the mixture machinery -/

lemma cholesky2_of_PD {c : Tensor} (h : PD2 c) : cholesky2 c = Except.ok (cholVal c) := by
  rw [cholesky2, if_pos h]

lemma choleskyAll_isOk : ∀ cs : List Tensor, (∀ c ∈ cs, PD2 c) →
    ∃ Ls, choleskyAll cs = Except.ok Ls
  | [], _ => ⟨[], rfl⟩
  | c :: cs, h => by
    obtain ⟨Ls, hLs⟩ := choleskyAll_isOk cs (fun x hx => h x (List.mem_cons_of_mem c hx))
    refine ⟨cholVal c :: Ls, ?_⟩
    simp only [choleskyAll, cholesky2_of_PD (h c (List.mem_cons_self c cs)), hLs]

lemma choleskyAll_ok : ∀ (cs : List Tensor) (Ls : List (ℝ × ℝ × ℝ)),
    choleskyAll cs = Except.ok Ls →
    Ls.length = cs.length ∧ ∀ k, k < cs.length →
      cholesky2 (cs.getD k []) = Except.ok (Ls.getD k (0, 0, 0))
  | [], Ls, h => by
    simp only [choleskyAll] at h
    cases h
    exact ⟨rfl, fun k hk => absurd hk (Nat.not_lt_zero k)⟩
  | c :: cs, Ls, h => by
    simp only [choleskyAll] at h
    split at h
    · simp at h
    · split at h
      · simp at h
      · rename_i d1 L hL d2 Ls' hLs'
        injection h with h
        subst h
        obtain ⟨hlen, hk⟩ := choleskyAll_ok cs Ls' hLs'
        refine ⟨by simp [hlen], ?_⟩
        intro k hk'
        cases k with
        | zero => simpa using hL
        | succ k => simpa using hk k (by simpa using hk')

lemma sum_map_div (s : ℝ) : ∀ l : List ℝ, (l.map (fun x => x / s)).sum = l.sum / s
  | [] => by simp
  | a :: l => by simp [sum_map_div s l, add_div]

lemma normalizeWeights_sum {w : List ℝ} (hs : w.sum ≠ 0) :
    (normalizeWeights w).sum = 1 := by
  rw [normalizeWeights, sum_map_div, div_self hs]

lemma sum_map_mul (c : ℝ) : ∀ l : List ℝ, (l.map (fun x => c * x)).sum = c * l.sum
  | [] => by simp
  | a :: l => by simp [sum_map_mul c l, mul_add]

lemma normalizeWeights_smul {c : ℝ} (hc : c ≠ 0) (w : List ℝ) :
    normalizeWeights (w.map (fun x => c * x)) = normalizeWeights w := by
  rw [normalizeWeights, normalizeWeights, List.map_map, sum_map_mul]
  refine List.map_congr_left fun x _ => ?_
  show c * x / (c * w.sum) = x / w.sum
  exact mul_div_mul_left x w.sum hc

lemma catIndex_lt_length : ∀ (p : List ℝ) (u : ℝ), 0 ≤ u → u < p.sum →
    catIndex p u < p.length
  | [], u, h0, hs => by
    simp only [List.sum_nil] at hs
    exact absurd (lt_of_le_of_lt h0 hs) (lt_irrefl 0)
  | q :: qs, u, h0, hs => by
    simp only [catIndex]
    split
    · simp
    · rename_i hq
      push_neg at hq
      have hrec : catIndex qs (u - q) < qs.length :=
        catIndex_lt_length qs (u - q) (by linarith)
          (by simp only [List.sum_cons] at hs; linarith)
      simpa using Nat.succ_lt_succ hrec

/-! ### Claim C6: parameter validation is deferred, not performed at construction -/

/-- C6 amended: constructing a `Gaussian` or a `GaussianMixture` never fails — the
constructors only register the parameter buffers unchecked.  The failure for a
non-positive-definite covariance, or for negative mixture weights, is deferred to
the first `sample` (or `log_density`) call, where the wrapped torch distribution is
built: the covariance fails in the Cholesky factorization and negative weights fail
in the multinomial draw. -/
theorem construction_defers_validation (mean : List ℝ) (cov : Tensor) (z : List ℝ)
    (means : Tensor) (covs : List Tensor) (w : List ℝ) (u : ℝ) (z' : List ℝ)
    (hcov : ¬ PD2 cov) (hw : ∃ x ∈ w, x < 0) :
    Gaussian.init mean cov = Except.ok ⟨mean, cov⟩
    ∧ Gaussian.sampleE ⟨mean, cov⟩ z
        = Except.error "linalg.cholesky: The factorization could not be completed"
    ∧ GaussianMixture.init means covs w = Except.ok ⟨means, covs, w⟩
    ∧ ∃ e, GaussianMixture.sampleE ⟨means, covs, w⟩ u z' = Except.error e := by
  refine ⟨rfl, ?_, rfl, ?_⟩
  · simp only [Gaussian.sampleE]
    rw [cholesky2, if_neg hcov]
    rfl
  · cases hch : choleskyAll covs with
    | error e =>
      refine ⟨e, ?_⟩
      rw [GaussianMixture.sampleE]
      simp only [hch]
    | ok Ls =>
      refine ⟨"invalid multinomial distribution (encountering probability entry < 0)", ?_⟩
      rw [GaussianMixture.sampleE]
      simp only [hch]
      rw [if_pos hw]

theorem construction_defers_validation_witness :
    (¬ PD2 [[-1, 0], [0, -1]])
    ∧ (Gaussian.init [0, 0] [[-1, 0], [0, -1]]
          = Except.ok ⟨[0, 0], [[-1, 0], [0, -1]]⟩
      ∧ Gaussian.sampleE ⟨[0, 0], [[-1, 0], [0, -1]]⟩ [0, 0]
          = Except.error "linalg.cholesky: The factorization could not be completed"
      ∧ GaussianMixture.init [[0, 0]] [[[1, 0], [0, 1]]] [-1]
          = Except.ok ⟨[[0, 0]], [[[1, 0], [0, 1]]], [-1]⟩
      ∧ ∃ e, GaussianMixture.sampleE ⟨[[0, 0]], [[[1, 0], [0, 1]]], [-1]⟩ 0 [0, 0]
          = Except.error e) :=
  ⟨by norm_num [PD2, ent],
    construction_defers_validation [0, 0] [[-1, 0], [0, -1]] [0, 0]
      [[0, 0]] [[[1, 0], [0, 1]]] [-1] 0 [0, 0]
      (by norm_num [PD2, ent]) ⟨-1, by simp, by norm_num⟩⟩

/-- C6 counterexample: with the non-positive-definite covariance `[[-1,0],[0,-1]]`
the `Gaussian` constructor succeeds (it raises nothing), and the failure only
happens at the later `sample` call — refuting the claim that it fails at
construction time rather than deferring; likewise the mixture constructor succeeds
on the negative weight vector `[-1]` and only `sample` fails. -/
theorem construction_defers_validation_cex :
    Gaussian.init [0, 0] [[-1, 0], [0, -1]] = Except.ok ⟨[0, 0], [[-1, 0], [0, -1]]⟩
    ∧ Gaussian.sampleE ⟨[0, 0], [[-1, 0], [0, -1]]⟩ [0, 0]
        = Except.error "linalg.cholesky: The factorization could not be completed"
    ∧ GaussianMixture.init [[0, 0]] [[[1, 0], [0, 1]]] [-1]
        = Except.ok ⟨[[0, 0]], [[[1, 0], [0, 1]]], [-1]⟩
    ∧ GaussianMixture.sampleE ⟨[[0, 0]], [[[1, 0], [0, 1]]], [-1]⟩ 0 [0, 0]
        = Except.error
            "invalid multinomial distribution (encountering probability entry < 0)" := by
  refine ⟨rfl, ?_, rfl, ?_⟩
  · simp only [Gaussian.sampleE]
    rw [cholesky2, if_neg (show ¬ PD2 [[(-1 : ℝ), 0], [0, -1]] by norm_num [PD2, ent])]
    rfl
  · have hch : choleskyAll [[[(1 : ℝ), 0], [0, 1]]]
        = Except.ok [cholVal [[(1 : ℝ), 0], [0, 1]]] := by
      simp only [choleskyAll, cholesky2_of_PD (show PD2 [[(1 : ℝ), 0], [0, 1]] by
        norm_num [PD2, ent])]
    rw [GaussianMixture.sampleE]
    simp only [hch]
    rw [if_pos ⟨-1, by simp, by norm_num⟩]

/-! ### Claim C9: mixture sampling -/

/-- C9: `GaussianMixture.sample` draws each sample by first drawing a component
index according to the mixture weights normalized to sum to 1 — the caller-supplied
weights need not be pre-normalized: the normalized weights sum to 1 and rescaling
the raw weights leaves them unchanged — and then sampling from that component's
Gaussian with the corresponding mean and covariance (for a valid mixture:
nonnegative weights of positive sum, positive-definite component covariances, one
covariance per weight, and a uniform draw in `[0, 1)`). -/
theorem mixture_sample_spec (gm : GaussianMixture) (u : ℝ) (z : List ℝ) (c : ℝ)
    (hw0 : ∀ x ∈ gm.weights, 0 ≤ x) (hws : 0 < gm.weights.sum)
    (hpd : ∀ cv ∈ gm.covs, PD2 cv)
    (hu0 : 0 ≤ u) (hu1 : u < 1)
    (hlen : gm.covs.length = gm.weights.length)
    (hc : 0 < c) :
    (normalizeWeights gm.weights).sum = 1
    ∧ normalizeWeights (gm.weights.map (fun x => c * x)) = normalizeWeights gm.weights
    ∧ GaussianMixture.sampleE gm u z
        = Gaussian.sampleE
            ⟨gm.means.getD (catIndex (normalizeWeights gm.weights) u) [],
              gm.covs.getD (catIndex (normalizeWeights gm.weights) u) []⟩ z := by
  have hsum1 : (normalizeWeights gm.weights).sum = 1 := normalizeWeights_sum hws.ne'
  refine ⟨hsum1, normalizeWeights_smul hc.ne' _, ?_⟩
  obtain ⟨Ls, hLs⟩ := choleskyAll_isOk gm.covs hpd
  obtain ⟨hLlen, hLk⟩ := choleskyAll_ok gm.covs Ls hLs
  have hneg : ¬ ∃ x ∈ gm.weights, x < 0 := by
    push_neg
    exact fun x hx => hw0 x hx
  have hkb : catIndex (normalizeWeights gm.weights) u < gm.covs.length := by
    have hk := catIndex_lt_length (normalizeWeights gm.weights) u hu0
      (by rw [hsum1]; exact hu1)
    rw [normalizeWeights, List.length_map] at hk
    rw [hlen]
    exact hk
  rw [GaussianMixture.sampleE]
  simp only [hLs]
  rw [if_neg hneg, if_neg (not_le.mpr hws)]
  rw [Gaussian.sampleE]
  show _ = Except.map _ (cholesky2 (gm.covs.getD (catIndex (normalizeWeights gm.weights) u) []))
  rw [hLk _ hkb]
  rfl

theorem mixture_sample_spec_witness :
    (normalizeWeights [(1 : ℝ), 1]).sum = 1
    ∧ normalizeWeights ([(1 : ℝ), 1].map (fun x => 2 * x)) = normalizeWeights [(1 : ℝ), 1]
    ∧ GaussianMixture.sampleE
          ⟨[[0, 0], [4, 4]], [[[1, 0], [0, 1]], [[1, 0], [0, 1]]], [1, 1]⟩ 0 [0, 0]
        = Gaussian.sampleE
            ⟨([[(0 : ℝ), 0], [4, 4]]).getD (catIndex (normalizeWeights [(1 : ℝ), 1]) 0) [],
              ([[[(1 : ℝ), 0], [0, 1]], [[1, 0], [0, 1]]]).getD
                (catIndex (normalizeWeights [(1 : ℝ), 1]) 0) []⟩ [0, 0] :=
  mixture_sample_spec ⟨[[0, 0], [4, 4]], [[[1, 0], [0, 1]], [[1, 0], [0, 1]]], [1, 1]⟩
    0 [0, 0] 2
    (by
      intro x hx
      rcases List.mem_cons.mp hx with rfl | hx
      · norm_num
      · rw [List.mem_singleton] at hx
        subst hx
        norm_num)
    (by norm_num)
    (by
      intro cv hcv
      rcases List.mem_cons.mp hcv with rfl | hcv
      · norm_num [PD2, ent]
      · rw [List.mem_singleton] at hcv
        subst hcv
        norm_num [PD2, ent])
    le_rfl
    (by norm_num)
    rfl
    (by norm_num)

/-! ### Lemmas about the heap model -/

lemma getD_snoc : ∀ (s : Store) (v : Tensor), (s ++ [v]).getD s.length [] = v
  | [], v => rfl
  | a :: s, v => by simp [getD_snoc s v]

lemma getD_append_lt : ∀ (s tail : Store) (i : ℕ), i < s.length →
    (s ++ tail).getD i [] = s.getD i []
  | [], tail, i, h => by simp at h
  | a :: s, tail, 0, _ => rfl
  | a :: s, tail, i + 1, h => by
    simpa using getD_append_lt s tail i (by simpa using h)

lemma getD_append_self (s : Store) (r : ℕ) :
    (s ++ [s.getD r []]).getD r [] = s.getD r [] := by
  rcases Nat.lt_trichotomy r s.length with h | h | h
  · exact getD_append_lt s _ r h
  · rw [h]
    exact getD_snoc s _
  · have h2 : s.length ≤ r := le_of_lt h
    have h1 : (s ++ [s.getD r []]).length ≤ r := by
      simp only [List.length_append, List.length_singleton]
      omega
    rw [List.getD_eq_default _ _ h1, List.getD_eq_default _ _ h2]

lemma trajPure_head {S : Type} (f : S → ℝ → ℝ → S) (x : S) (ps : List (ℝ × ℝ)) :
    trajPure f x ps = x :: (trajPure f x ps).tail := by
  cases ps <;> rfl

lemma simulateStore_extends (f : Tensor → ℝ → ℝ → Tensor) :
    ∀ (ps : List (ℝ × ℝ)) (s : Store) (r : ℕ),
      ∃ tail, (simulateStore f s r ps).1 = s ++ tail
  | [], s, r => ⟨[], by simp [simulateStore]⟩
  | p :: ps, s, r => by
    obtain ⟨tail, ht⟩ := simulateStore_extends f ps
      (s ++ [f (s.getD r []) p.1 (p.2 - p.1)]) s.length
    exact ⟨[f (s.getD r []) p.1 (p.2 - p.1)] ++ tail, by
      simp only [simulateStore, stepStore, alloc]
      rw [ht, List.append_assoc]⟩

lemma trajLoopStore_extends (f : Tensor → ℝ → ℝ → Tensor) :
    ∀ (ps : List (ℝ × ℝ)) (s : Store) (r : ℕ),
      ∃ tail, (trajLoopStore f s r ps).1 = s ++ tail
  | [], s, r => ⟨[], by simp [trajLoopStore]⟩
  | p :: ps, s, r => by
    obtain ⟨tail, ht⟩ := trajLoopStore_extends f ps
      ((s ++ [f (s.getD r []) p.1 (p.2 - p.1)])
        ++ [(s ++ [f (s.getD r []) p.1 (p.2 - p.1)]).getD s.length []]) s.length
    exact ⟨_, by
      simp only [trajLoopStore, stepStore, cloneStore, alloc]
      rw [ht, List.append_assoc, List.append_assoc]⟩

lemma trajLoop_reads (f : Tensor → ℝ → ℝ → Tensor) :
    ∀ (ps : List (ℝ × ℝ)) (s : Store) (r : ℕ),
      ((trajLoopStore f s r ps).2).map (fun j => (trajLoopStore f s r ps).1.getD j [])
        = (trajPure f (s.getD r []) ps).tail
  | [], s, r => by simp [trajLoopStore, trajPure]
  | p :: ps, s, r => by
    simp only [trajLoopStore, stepStore, cloneStore, alloc, List.map_cons, trajPure,
      List.tail_cons]
    rw [getD_snoc]
    rw [trajLoop_reads f ps
      ((s ++ [f (s.getD r []) p.1 (p.2 - p.1)]) ++ [f (s.getD r []) p.1 (p.2 - p.1)])
      s.length]
    rw [getD_append_lt (s ++ [f (s.getD r []) p.1 (p.2 - p.1)]) _ s.length (by simp)]
    rw [getD_snoc]
    obtain ⟨tail, ht⟩ := trajLoopStore_extends f ps
      ((s ++ [f (s.getD r []) p.1 (p.2 - p.1)]) ++ [f (s.getD r []) p.1 (p.2 - p.1)])
      s.length
    rw [ht, getD_append_lt _ tail _ (by simp), getD_snoc]
    exact (trajPure_head f (f (s.getD r []) p.1 (p.2 - p.1)) ps).symm

/-! ### Claim C10: the frame property of the simulation loops -/

/-- C10: in the heap model, `simulate` and `simulate_with_trajectory` (run with any
out-of-place step rule `f`, such as `EulerSimulator.step` of an ODE) never mutate
the caller's initial-state tensor: every heap cell allocated before the call, in
particular the one holding the initial state, holds exactly its original value
after the call.  Moreover the recorded trajectory entries are independent copies:
reading all recorded references in the final heap yields exactly the value-level
trajectory, so no later simulation step alters an earlier trajectory entry. -/
theorem no_mutation (f : Tensor → ℝ → ℝ → Tensor) (s : Store) (r : ℕ) (ts : List ℝ)
    (i : ℕ) (hi : i < s.length) :
    (simulateStore f s r (pairs ts)).1.getD i [] = s.getD i []
    ∧ (simulateTrajStore f s r (pairs ts)).1.getD i [] = s.getD i []
    ∧ ((simulateTrajStore f s r (pairs ts)).2).map
        (fun j => (simulateTrajStore f s r (pairs ts)).1.getD j [])
      = trajPure f (s.getD r []) (pairs ts) := by
  refine ⟨?_, ?_, ?_⟩
  · obtain ⟨tail, ht⟩ := simulateStore_extends f (pairs ts) s r
    rw [ht, getD_append_lt s tail i hi]
  · simp only [simulateTrajStore, cloneStore, alloc]
    obtain ⟨tail, ht⟩ := trajLoopStore_extends f (pairs ts) (s ++ [s.getD r []]) r
    rw [ht, List.append_assoc, getD_append_lt s _ i hi]
  · simp only [simulateTrajStore, cloneStore, alloc, List.map_cons]
    rw [trajLoop_reads f (pairs ts) (s ++ [s.getD r []]) r]
    rw [getD_append_self s r]
    obtain ⟨tail, ht⟩ := trajLoopStore_extends f (pairs ts) (s ++ [s.getD r []]) r
    rw [ht, getD_append_lt _ tail s.length (by simp), getD_snoc]
    exact (trajPure_head f (s.getD r []) (pairs ts)).symm

theorem no_mutation_witness :
    (simulateStore (fun x _ _ => x) [[[(5 : ℝ)]]] 0 (pairs [(0 : ℝ), 1])).1.getD 0 []
        = [[[(5 : ℝ)]]].getD 0 []
    ∧ (simulateTrajStore (fun x _ _ => x) [[[(5 : ℝ)]]] 0 (pairs [(0 : ℝ), 1])).1.getD 0 []
        = [[[(5 : ℝ)]]].getD 0 []
    ∧ ((simulateTrajStore (fun x _ _ => x) [[[(5 : ℝ)]]] 0 (pairs [(0 : ℝ), 1])).2).map
        (fun j =>
          (simulateTrajStore (fun x _ _ => x) [[[(5 : ℝ)]]] 0 (pairs [(0 : ℝ), 1])).1.getD j [])
      = trajPure (fun x _ _ => x) ([[[(5 : ℝ)]]].getD 0 []) (pairs [(0 : ℝ), 1]) :=
  no_mutation (fun x _ _ => x) [[[(5 : ℝ)]]] 0 [0, 1] 0 (by decide)

end Lab1
